import Mathlib

/-
  Verification development for the CodeReviewAI repository.

  The definitions below are shallow embeddings of the functions in
  src/tools.py (class CodeReviewService).  Stateful loops become explicit
  recursions that record the sleeps performed, the attempt counter, and
  the number of remote calls issued; remote endpoints become oracles
  (functions from call index to response).
-/

/-- A nested file tree as built by CodeReviewService.build_file_structure:
a Python dict whose values are either None (a file leaf) or a nested dict
(a directory).  Association lists keep the insertion order of Python dicts. -/
inductive FileTree where
  | leaf : FileTree
  | node : List (String × FileTree) → FileTree
deriving Repr

/-- Dictionary lookup: Python `part in current_level` / `current_level[part]`. -/
def lookupT (k : String) : List (String × FileTree) → Option FileTree
  | [] => none
  | (k', v) :: rest => if k' = k then some v else lookupT k rest

/-- Replace the value stored at an existing key, keeping its position
(Python dict item assignment on a present key). -/
def replaceT (k : String) (v : FileTree) : List (String × FileTree) → List (String × FileTree)
  | [] => []
  | (k', v') :: rest => if k' = k then (k', v) :: rest else (k', v') :: replaceT k v rest

/-- Python str.split for a one-character separator: "a//b".split("/") is
["a", "", "b"], "".split("/") is [""].  Models file_path.split("/") at
src/tools.py line 194. -/
def splitSlash : List Char → List (List Char)
  | [] => [[]]
  | c :: t =>
      if c = '/' then [] :: splitSlash t
      else
        match splitSlash t with
        | [] => [[c]]
        | h :: r => (c :: h) :: r

/-- The segment list of a repository path, as Python path.split("/"). -/
def pathParts (p : String) : List String :=
  (splitSlash p.toList).map (fun l => String.mk l)

/-- One iteration of the body of build_file_structure (src/tools.py lines
193-203) for a single file_path, already split into parts.  The Python code
walks a reference current_level through the nested dict: an absent part is
inserted as a fresh dict, or as None when the part VALUE equals parts[-1];
the walk then descends into the entry when it is a dict, and stays at the
same level when the entry is None. -/
def extendM (part last : String) (m : List (String × FileTree)) :
    List (String × FileTree) :=
  match lookupT part m with
  | some _ => m
  | none => m ++ [(part, if part = last then .leaf else .node [])]

def insertParts (last : String) : List String → FileTree → FileTree
  | [], t => t
  | _ :: _, .leaf => .leaf
  | part :: rest, .node m =>
      match lookupT part (extendM part last m) with
      | some (.node sub) =>
          .node (replaceT part (insertParts last rest (.node sub)) (extendM part last m))
      | _ => insertParts last rest (.node (extendM part last m))

/-- The final element of a segment list (Python parts[-1]; segment lists
coming from pathParts are never empty). -/
def lastSeg : List String → String
  | [] => ""
  | [s] => s
  | _ :: rest => lastSeg rest

/-- CodeReviewService.build_file_structure (src/tools.py lines 190-204). -/
def buildFileStructure (files : List String) : FileTree :=
  files.foldl
    (fun t p => insertParts (lastSeg (pathParts p)) (pathParts p) t)
    (.node [])

/-- Follow a key path into a tree (getting the Python sub-object at that
sequence of keys, if it exists). -/
def getPath : List String → FileTree → Option FileTree
  | [], t => some t
  | _ :: _, .leaf => none
  | k :: ks, .node m =>
      match lookupT k m with
      | some t => getPath ks t
      | none => none

/-- The observable kind of the entry at a key path: some true for a None
leaf, some false for a nested dict, none when the path does not exist.
Two Python nested dicts are equal (dict ==) iff they agree on shapeAt at
every key path. -/
def shapeAt (t : FileTree) (pos : List String) : Option Bool :=
  match getPath pos t with
  | some .leaf => some true
  | some (.node _) => some false
  | none => none

/-- Python dict equality for nested file trees, stated extensionally. -/
def dictEq (t1 t2 : FileTree) : Prop := ∀ pos, shapeAt t1 pos = shapeAt t2 pos

/-- p is a strict prefix of q (segment lists). -/
def properPre (p q : List String) : Bool := !(p == q) && p.isPrefixOf q

/-- The split paths lying immediately below key k. -/
def childSet (k : String) : List (List String) → List (List String)
  | [] => []
  | [] :: rest => childSet k rest
  | (k' :: σ) :: rest => if k' = k then σ :: childSet k rest else childSet k rest

/-- The shape that the tree of the split-path set S should have at pos:
a None leaf exactly at the members of S, a dict at the root and at every
strict prefix of a member, nothing elsewhere. -/
def specShape (S : List (List String)) (pos : List String) : Option Bool :=
  if pos ∈ S then some true
  else if pos = [] then some false
  else if S.any (fun q => properPre pos q) then some false
  else none

/-- t is exactly the tree of the split-path set S. -/
def TreeSpec (S : List (List String)) (t : FileTree) : Prop :=
  ∀ pos, shapeAt t pos = specShape S pos

/-- The final segment of a path differs from every earlier segment.  The
comparison part != parts[-1] in the source compares segment VALUES, so a
path whose last segment repeats an earlier segment is mangled; freshLast
rules that out. -/
def freshLast : List String → Bool
  | [] => true
  | [_] => true
  | s :: rest => (s != lastSeg rest) && freshLast rest

/-- One entry of a GitHub directory listing, as consumed by
fetch_all_files_content: type is file or dir, path is the full
repository-relative path, and for files the content that the content
fetcher eventually returns (None models a payload without a content
field, e.g. binary).  A directory carries the entries its listing
endpoint serves. -/
inductive RepoEntry where
  | file (path : String) (content : Option String)
  | dir (path : String) (children : List RepoEntry)

/-- The pagination loop of fetch_all_files_content (src/tools.py lines
109-176) run against a listing endpoint that serves the finite entry list
l in pages of 100: page p returns (l.drop ((p-1)*100)).take 100.  The loop
requests the given page; an empty page returns immediately; a full page is
processed and the next page is requested; a short page is processed and
the loop breaks.  Returns the entries processed in order, paired with the
list of page numbers requested. -/
def pageWalk (l : List RepoEntry) (page : Nat) : List RepoEntry × List Nat :=
  if l.length < 100 then (l, [page])
  else
    let r := pageWalk (l.drop 100) (page + 1)
    (l.take 100 ++ r.1, page :: r.2)
termination_by l.length
decreasing_by simp [List.length_drop]; omega

/-- _fetch_content_recursive (src/tools.py lines 178-188): a file entry
records path to fetched content in the dict; a dir entry contributes the
map of the recursive fetch_all_files_content walk over its children (that
walk's pagination processes exactly the listed children, theorem
pageWalk_processes_all). -/
def fetchFiles : RepoEntry → List (String × Option String)
  | .file p c => [(p, c)]
  | .dir _ ch => ch.attach.flatMap (fun e => fetchFiles e.1)
decreasing_by
  have := List.sizeOf_lt_of_mem e.2
  simp
  omega

/-- The full paths of the file entries reachable from an entry;
directories contribute only via their recursively contained files. -/
def reachableFilePaths : RepoEntry → List String
  | .file p _ => [p]
  | .dir _ ch => ch.attach.flatMap (fun e => reachableFilePaths e.1)
decreasing_by
  have := List.sizeOf_lt_of_mem e.2
  simp
  omega

/-- fetch_all_files_content (src/tools.py lines 105-176) invoked on the
repository root, whose listing serves rootEntries: every page is processed
with one task per entry via _fetch_content_recursive, and the accumulated
dict is returned. -/
def fetchAllFilesContent (rootEntries : List RepoEntry) : List (String × Option String) :=
  (pageWalk rootEntries 1).1.flatMap fetchFiles

/-- A sample listing entry used to instantiate pagination statements. -/
def sampleEntry : RepoEntry := .file "x" none

/-- The response one file-content request observes: a 200 whose JSON
payload has a content field (some (some txt) when it decodes as base64
UTF-8 text, some none when decoding raises) or lacks it (none); a non-2xx
status, whose headers carry the X-RateLimit-Reset value (the file-site
code never reads it); or an exception not tied to a status. -/
inductive FileResp where
  | ok (content : Option (Option String))
  | status (code : Nat) (reset : Int)
  | exc

inductive FileOutcome where
  | value (v : Option String)
  | httpErr (code : Nat) (detail : String)
deriving DecidableEq

/-- The observable run of _get_file_content: its result, the sleeps it
performed in order, the value of the attempt counter when it finished,
and the number of requests issued. -/
structure FileRun where
  outcome : FileOutcome
  sleeps : List Nat
  finalAttempt : Nat
  calls : Nat
deriving DecidableEq

/-- The retry loop of _get_file_content (src/tools.py lines 54-103)
against an oracle giving the response of the attempt-th request.  Every
looping branch increments attempt, so the remaining iteration budget
MAX_RETRIES - attempt is the structural argument rem; rem = 0 is the exit
of while attempt < MAX_RETRIES, which raises the 500 max-retries error.
A 403 sleeps the fixed BACKOFF_FACTOR (2 seconds, not the reset delta)
and increments attempt; a 429 or 500 increments attempt and sleeps
2 ^ attempt (post-increment); any other status raises immediately with
that status; an exception, including a content field that fails base64 or
UTF-8 decoding, raises 500 immediately; an absent content field returns
the None marker. -/
def getFileContentGo (oracle : Nat → FileResp) : Nat → Nat → FileRun
  | 0, attempt =>
      ⟨.httpErr 500 "Exceeded max retries for fetching file content.", [], attempt, 0⟩
  | rem + 1, attempt =>
      match oracle attempt with
      | .ok none => ⟨.value none, [], attempt, 1⟩
      | .ok (some (some txt)) => ⟨.value (some txt), [], attempt, 1⟩
      | .ok (some none) =>
          ⟨.httpErr 500 "Unexpected error fetching file content.", [], attempt, 1⟩
      | .status code _ =>
          if code = 403 then
            let r := getFileContentGo oracle rem (attempt + 1)
            ⟨r.outcome, 2 :: r.sleeps, r.finalAttempt, r.calls + 1⟩
          else if code = 429 ∨ code = 500 then
            let r := getFileContentGo oracle rem (attempt + 1)
            ⟨r.outcome, 2 ^ (attempt + 1) :: r.sleeps, r.finalAttempt, r.calls + 1⟩
          else ⟨.httpErr code "Failed to fetch file content.", [], attempt, 1⟩
      | .exc =>
          ⟨.httpErr 500 "Unexpected error fetching file content.", [], attempt, 1⟩

def getFileContent (oracle : Nat → FileResp) : FileRun :=
  getFileContentGo oracle 5 0

/-- The response one directory-listing request observes. -/
inductive ListResp where
  | ok (entries : List RepoEntry)
  | status (code : Nat) (reset : Int)
  | exc

/-- How one round of the inner retry loop of fetch_all_files_content ends:
page entries (break and process); emptyReturn (empty page, return the
accumulated dict); an HTTPException; fellThrough when attempt reached
MAX_RETRIES and the while loop exited with NO raise, control reaching
line 172 with repo_content unbound or stale; outOfFuel marks a run still
looping (the uncounted 403 branch can loop forever). -/
inductive ListOutcome where
  | page (entries : List RepoEntry)
  | emptyReturn
  | httpErr (code : Nat) (detail : String)
  | fellThrough
  | outOfFuel

structure ListRun where
  outcome : ListOutcome
  sleeps : List Int
  finalAttempt : Nat
  calls : Nat

/-- The inner retry loop of fetch_all_files_content for one page request
(src/tools.py lines 117-170), against an oracle giving the response of
the iter-th request of this loop and a frozen clock now.  A 403 reads the
X-RateLimit-Reset header, sleeps max(0, reset - now) and does NOT touch
the attempt counter; a 429 or 500 increments attempt and sleeps
2 ^ attempt (post-increment); other statuses and exceptions raise.  When
attempt reaches MAX_RETRIES (5) the loop falls through without raising. -/
def listPageLoop (oracle : Nat → ListResp) (now : Int) :
    Nat → Nat → Nat → ListRun
  | 0, _, attempt => ⟨.outOfFuel, [], attempt, 0⟩
  | fuel + 1, iter, attempt =>
      if attempt < 5 then
        match oracle iter with
        | .ok entries =>
            if entries.isEmpty then ⟨.emptyReturn, [], attempt, 1⟩
            else ⟨.page entries, [], attempt, 1⟩
        | .status code reset =>
            if code = 403 then
              let r := listPageLoop oracle now fuel (iter + 1) attempt
              ⟨r.outcome, max 0 (reset - now) :: r.sleeps, r.finalAttempt, r.calls + 1⟩
            else if code = 429 ∨ code = 500 then
              let r := listPageLoop oracle now fuel (iter + 1) (attempt + 1)
              ⟨r.outcome, ((2 ^ (attempt + 1) : Nat) : Int) :: r.sleeps,
                r.finalAttempt, r.calls + 1⟩
            else ⟨.httpErr code "Failed to fetch repository content.", [], attempt, 1⟩
        | .exc =>
            ⟨.httpErr 500 "Unexpected error fetching repository content.", [], attempt, 1⟩
      else ⟨.fellThrough, [], attempt, 0⟩

/-- A file-site oracle that is rate limited once and then succeeds. -/
def fileRateLimitedOnce : Nat → FileResp
  | 0 => .status 403 107
  | _ + 1 => .ok none

/-- A listing-site oracle that is rate limited once and then serves one
entry. -/
def listRateLimitedOnce : Nat → ListResp
  | 0 => .status 403 107
  | _ + 1 => .ok [sampleEntry]

/-- Oracles that always answer HTTP 429. -/
def fileAlways429 : Nat → FileResp := fun _ => .status 429 0

def listAlways429 : Nat → ListResp := fun _ => .status 429 0

/-- The whitespace characters removed by Python str.strip(). -/
def pyWs (c : Char) : Bool :=
  c = ' ' || c = '\t' || c = '\n' || c = '\r' || c = '\x0b' || c = '\x0c'

/-- Remove trailing Python whitespace. -/
def rstrip (s : List Char) : List Char := (s.reverse.dropWhile pyWs).reverse

/-- Python str.strip(): remove trailing, then leading, whitespace (the
order of the two removals does not matter). -/
def pyStrip (s : List Char) : List Char := (rstrip s).dropWhile pyWs

/-- The index of the first occurrence of needle in hay, if any (the
starting position re.search finds for a literal pattern). -/
def findSub (needle : List Char) : List Char → Option Nat
  | [] => if needle.isEmpty then some 0 else none
  | c :: t =>
      if needle.isPrefixOf (c :: t) then some 0
      else (findSub needle t).map (· + 1)

/-- The terminator recognized by the lookahead (?=\n###|$): a newline
followed by three number signs. -/
def nlMarker : List Char := '\n' :: '#' :: '#' :: '#' :: []

/-- The lazy capture of (.*?)(?=\n###|$) under re.DOTALL, scanning from
the position right after the marker: consume characters until the first
position where the terminator begins or where the Python dollar anchor
matches, i.e. the end of the text or just before a newline that ends the
text. -/
def reCapture (term : List Char) : List Char → List Char
  | [] => []
  | c :: t =>
      if term.isPrefixOf (c :: t) then []
      else if c = '\n' ∧ t = [] then []
      else c :: reCapture term t

/-- The three section patterns of parse_review_response (src/tools.py
lines 219-225). -/
def downsidesMarker : List Char := "### Downsides:\n".toList

def ratingMarker : List Char := "### Rating:\n".toList

def conclusionMarker : List Char := "### Conclusion:\n".toList

/-- One section of parse_review_response: re.search of the pattern
marker(.*?)(?=\n###|$) with re.DOTALL, then group(1).strip(); a missing
marker yields the empty string (the or-else branches at lines 229-233). -/
def extractSection (marker text : List Char) : List Char :=
  match findSub marker text with
  | none => []
  | some i => pyStrip (reCapture nlMarker (text.drop (i + marker.length)))

/-- The text up to the next terminator occurrence, or all of it. -/
def upToMarker (term s : List Char) : List Char :=
  match findSub term s with
  | some j => s.take j
  | none => s

/-- Modelled from the spec (section 4.6 Response Parser): capture
everything from immediately after the marker up to the next recognized
marker or the end of text, and trim leading and trailing whitespace; a
missing marker yields the empty string. -/
def extractSectionSpec (marker text : List Char) : List Char :=
  match findSub marker text with
  | none => []
  | some i => pyStrip (upToMarker nlMarker (text.drop (i + marker.length)))

/-- The structured result of parse_review_response: found_files passes
through unchanged, and the three text fields are extracted from the raw
response text. -/
structure ReviewResponse where
  found_files : FileTree
  downsides_comments : List Char
  rating : List Char
  conclusion : List Char

/-- CodeReviewService.parse_review_response (src/tools.py lines 215-234). -/
def parseReviewResponse (text : List Char) (found : FileTree) : ReviewResponse :=
  ⟨found, extractSection downsidesMarker text, extractSection ratingMarker text,
    extractSection conclusionMarker text⟩

/-- A sample inference output used to evaluate the parser concretely. -/
def exampleReviewText : List Char :=
  ("preamble\n### Downsides:\n- downside one\n\n### Rating:\n4/5\n\n" ++
    "### Conclusion:\nGood.\n### End of Review").toList

/-- Python str() of a nested dict with None leaves, as interpolated for
the f-string placeholder holding file_structure. -/
def pyReprTree : FileTree → String
  | .leaf => "None"
  | .node m =>
      "\x7b" ++
        String.intercalate ", "
          (m.attach.map (fun kv => "\x27" ++ kv.1.1 ++ "\x27: " ++ pyReprTree kv.1.2)) ++
        "\x7d"
decreasing_by
  have := List.sizeOf_lt_of_mem kv.2
  cases hkv : kv.1 with
  | mk a b => simp [hkv] at this ⊢; omega

/-- The interpolation of one content value into the f-string
File: {filename}{newline}{content}: Python renders None as the four
characters None, not as an empty body. -/
def renderContent : Option String → String
  | some s => s
  | none => "None"

/-- Python separator.join for the newline separator. -/
def joinNl : List String → String
  | [] => ""
  | [s] => s
  | s :: rest => s ++ "\n" ++ joinNl rest

/-- The code_snippets value of generate_review (src/tools.py lines
240-245): one File block per entry of the content dict, in insertion
order. -/
def codeSnippets (fc : List (String × Option String)) : String :=
  joinNl (fc.map (fun kv => "File: " ++ kv.1 ++ "\n" ++ renderContent kv.2))

/-- The prompt literal of generate_review (src/tools.py lines 247-257). -/
def buildPrompt (candidateLevel : String) (fc : List (String × Option String)) : String :=
  "Review this code for a " ++ candidateLevel ++ " level assignment.\n\n" ++
  "Files found in the repository:\n" ++
  pyReprTree (buildFileStructure (fc.map Prod.fst)) ++ "\n\n" ++
  "Code snippets:\n" ++ codeSnippets fc ++ "\n\n" ++
  "Provide feedback exactly in the following format, ensuring each section starts with the specified label:\n" ++
  "### Start of Review\n" ++
  "### Downsides:\n- List any issues or missing features in the code.\n\n" ++
  "### Rating:\n- Provide a rating out of 5 and briefly justify the score.\n\n" ++
  "### Conclusion:\n- Summarize the main points and give recommendations for improvements.\n" ++
  "### End of Review"

/-- What one inference call yields: flagged covers a falsy response, a
response without a text attribute, and a first candidate whose
finish_reason is SAFETY; ok carries the extractable text; exc is any
other exception during the call. -/
inductive InferOutcome where
  | flagged
  | ok (text : List Char)
  | exc

inductive GenOutcome where
  | success (r : ReviewResponse)
  | httpErr (code : Nat) (detail : String)

/-- The observable run of generate_review: its result, the sleeps
performed, and the prompt used by each inference call in order. -/
structure GenRun where
  outcome : GenOutcome
  sleeps : List Nat
  promptsUsed : List String

/-- The safety retry loop of generate_review (src/tools.py lines 259-292)
against an oracle giving the outcome of the attempt-th inference call.
Every looping branch increments safety_attempt, so the remaining budget
SAFETY_RETRY_LIMIT - safety_attempt is the structural argument rem; rem =
0 is the exit of the while loop, which raises the 400 safety error.  A
flagged response increments the counter and sleeps
SAFETY_BACKOFF_FACTOR ^ safety_attempt (post-increment) before retrying
with the same prompt; a usable response returns the parsed result; any
other exception raises 500 immediately. -/
def genLoopGo (oracle : Nat → InferOutcome) (prompt : String) (found : FileTree) :
    Nat → Nat → GenRun
  | 0, _ =>
      ⟨.httpErr 400 "Review generation blocked by safety filters after multiple attempts.",
        [], []⟩
  | rem + 1, attempt =>
      match oracle attempt with
      | .flagged =>
          let r := genLoopGo oracle prompt found rem (attempt + 1)
          ⟨r.outcome, 2 ^ (attempt + 1) :: r.sleeps, prompt :: r.promptsUsed⟩
      | .ok text => ⟨.success (parseReviewResponse text found), [], [prompt]⟩
      | .exc => ⟨.httpErr 500 "An error occurred while generating the review.", [], [prompt]⟩

/-- CodeReviewService.generate_review (src/tools.py lines 236-292): build
the file structure and the prompt once, then run the safety retry loop. -/
def generateReview (oracle : Nat → InferOutcome)
    (filesContent : List (String × Option String)) (candidateLevel : String) : GenRun :=
  genLoopGo oracle (buildPrompt candidateLevel filesContent)
    (buildFileStructure (filesContent.map Prod.fst)) 3 0

theorem splitSlash_ne_nil (l : List Char) : splitSlash l ≠ [] := by
  induction l with
  | nil => simp [splitSlash]
  | cons c t ih =>
      simp only [splitSlash]
      split
      · simp
      · cases h : splitSlash t with
        | nil => simp
        | cons h r => simp

theorem pathParts_ne_nil (p : String) : pathParts p ≠ [] := by
  simp [pathParts, splitSlash_ne_nil]

example : buildFileStructure ["a", "a/b"] =
    .node [("a", .leaf), ("b", .leaf)] := by rfl

example : buildFileStructure ["a/b", "a"] =
    .node [("a", .node [("b", .leaf)])] := by rfl

example : buildFileStructure ["a/a"] = .node [("a", .leaf)] := by rfl

example : buildFileStructure ["a.py", "dir/b.py"] =
    .node [("a.py", .leaf), ("dir", .node [("b.py", .leaf)])] := by rfl

theorem shapeAt_node_nil (m : List (String × FileTree)) :
    shapeAt (.node m) [] = some false := rfl

theorem shapeAt_cons_some {k : String} {m : List (String × FileTree)} {t : FileTree}
    (h : lookupT k m = some t) (σ : List String) :
    shapeAt (.node m) (k :: σ) = shapeAt t σ := by
  simp [shapeAt, getPath, h]

theorem shapeAt_cons_none {k : String} {m : List (String × FileTree)}
    (h : lookupT k m = none) (σ : List String) :
    shapeAt (.node m) (k :: σ) = none := by
  simp [shapeAt, getPath, h]

theorem lookupT_append (k : String) (m l : List (String × FileTree)) :
    lookupT k (m ++ l) =
      (match lookupT k m with | some v => some v | none => lookupT k l) := by
  induction m with
  | nil => simp [lookupT]
  | cons kv rest ih =>
      obtain ⟨k', v⟩ := kv
      by_cases h : k' = k <;> simp [lookupT, h, ih]

theorem lookupT_replaceT_ne {k p : String} (h : k ≠ p) (v : FileTree)
    (m : List (String × FileTree)) :
    lookupT k (replaceT p v m) = lookupT k m := by
  induction m with
  | nil => simp [replaceT]
  | cons kv rest ih =>
      obtain ⟨k', v'⟩ := kv
      by_cases h1 : k' = p
      · have h2 : k' ≠ k := by rw [h1]; exact Ne.symm h
        simp [replaceT, lookupT, h1, h2, Ne.symm h]
      · by_cases h2 : k' = k <;> simp [replaceT, lookupT, h1, h2, h, Ne.symm h, ih]

theorem lookupT_replaceT_eq {p : String} {m : List (String × FileTree)} {w : FileTree}
    (h : lookupT p m = some w) (v : FileTree) :
    lookupT p (replaceT p v m) = some v := by
  induction m with
  | nil => simp [lookupT] at h
  | cons kv rest ih =>
      obtain ⟨k', v'⟩ := kv
      by_cases h1 : k' = p
      · simp [replaceT, lookupT, h1]
      · simp [lookupT, h1] at h
        simp [replaceT, lookupT, h1, ih h]

theorem replaceT_self {p : String} {m : List (String × FileTree)} {v : FileTree}
    (h : lookupT p m = some v) : replaceT p v m = m := by
  induction m with
  | nil => simp [lookupT] at h
  | cons kv rest ih =>
      obtain ⟨k', v'⟩ := kv
      by_cases h1 : k' = p
      · subst h1
        simp [lookupT] at h
        simp [replaceT, h]
      · simp [lookupT, h1] at h
        simp [replaceT, h1, ih h]

theorem properPre_nil_left (q : List String) : properPre [] q = !(q == []) := by
  cases q <;> simp [properPre, List.isPrefixOf]

theorem properPre_cons_same (p : String) (a b : List String) :
    properPre (p :: a) (p :: b) = properPre a b := by
  simp [properPre, List.isPrefixOf]

theorem properPre_cons_ne {k p : String} (h : k ≠ p) (a b : List String) :
    properPre (k :: a) (p :: b) = false := by
  simp [properPre, List.isPrefixOf, h]

theorem properPre_cons_nil (k : String) (a : List String) :
    properPre (k :: a) [] = false := by
  simp [properPre, List.isPrefixOf]

theorem childSet_mem (k : String) (S : List (List String)) (σ : List String) :
    σ ∈ childSet k S ↔ k :: σ ∈ S := by
  induction S with
  | nil => simp [childSet]
  | cons q rest ih =>
      cases q with
      | nil => simp [childSet, ih]
      | cons k' τ =>
          by_cases h : k' = k
          · subst h
            simp [childSet, ih]
          · simp [childSet, h, Ne.symm h, ih]

theorem childSet_any (k : String) (S : List (List String)) (σ : List String) :
    (S.any fun q => properPre (k :: σ) q) = ((childSet k S).any fun q => properPre σ q) := by
  induction S with
  | nil => simp [childSet]
  | cons q rest ih =>
      cases q with
      | nil => simp [childSet, properPre_cons_nil, ih]
      | cons k' τ =>
          by_cases h : k' = k
          · subst h
            simp [childSet, properPre_cons_same, ih]
          · simp [childSet, h, properPre_cons_ne (Ne.symm h), ih]

theorem specShape_ext {S S' : List (List String)}
    (h : ∀ x, x ∈ S ↔ x ∈ S') (pos : List String) :
    specShape S pos = specShape S' pos := by
  have hany : (S.any fun q => properPre pos q) = (S'.any fun q => properPre pos q) := by
    cases h1 : S'.any fun q => properPre pos q
    · simp only [List.any_eq_false] at h1 ⊢
      intro x hx
      exact h1 x ((h x).mp hx)
    · simp only [List.any_eq_true] at h1 ⊢
      obtain ⟨x, hx, hpx⟩ := h1
      exact ⟨x, (h x).mpr hx, hpx⟩
  unfold specShape
  by_cases hm : pos ∈ S
  · rw [if_pos hm, if_pos ((h pos).mp hm)]
  · rw [if_neg hm, if_neg (fun hc => hm ((h pos).mpr hc))]
    by_cases hn : pos = []
    · rw [if_pos hn, if_pos hn]
    · rw [if_neg hn, if_neg hn, hany]

theorem specShape_eq_true_iff (S : List (List String)) (pos : List String) :
    specShape S pos = some true ↔ pos ∈ S := by
  unfold specShape
  by_cases hm : pos ∈ S
  · simp [hm]
  · by_cases hn : pos = []
    · simp [hm, hn]
    · by_cases ha : (S.any fun q => properPre pos q) = true <;> simp [hm, hn, ha]

theorem specShape_childSet {σ : List String} (hσ : σ ≠ []) (p : String)
    (S : List (List String)) :
    specShape S (p :: σ) = specShape (childSet p S) σ := by
  unfold specShape
  by_cases hm : σ ∈ childSet p S
  · rw [if_pos ((childSet_mem p S σ).mp hm), if_pos hm]
  · rw [if_neg (fun hc => hm ((childSet_mem p S σ).mpr hc)), if_neg hm,
      if_neg (by simp : ¬(p :: σ = [])), if_neg hσ, childSet_any]

theorem specShape_none_of_no_ext {S : List (List String)} {pos : List String}
    (hpos : pos ≠ []) (hm : pos ∉ S)
    (ha : (S.any fun q => properPre pos q) = false) :
    specShape S pos = none := by
  unfold specShape
  rw [if_neg hm, if_neg hpos, ha]
  simp

theorem extendM_of_some {part : String} {m : List (String × FileTree)} {w : FileTree}
    (h : lookupT part m = some w) (last : String) : extendM part last m = m := by
  unfold extendM
  rw [h]

theorem extendM_of_none {part : String} {m : List (String × FileTree)}
    (h : lookupT part m = none) (last : String) :
    extendM part last m = m ++ [(part, if part = last then .leaf else .node [])] := by
  unfold extendM
  rw [h]

theorem lookupT_extendM_self_none {part : String} {m : List (String × FileTree)}
    (h : lookupT part m = none) (last : String) :
    lookupT part (extendM part last m) =
      some (if part = last then .leaf else .node []) := by
  rw [extendM_of_none h, lookupT_append, h]
  simp [lookupT]

theorem lookupT_extendM_ne {k part : String} (hk : k ≠ part)
    (last : String) (m : List (String × FileTree)) :
    lookupT k (extendM part last m) = lookupT k m := by
  unfold extendM
  cases h : lookupT part m with
  | some w => rfl
  | none =>
      rw [lookupT_append]
      cases h2 : lookupT k m with
      | some v => rfl
      | none => simp [lookupT, Ne.symm hk]

/-- TreeSpec facts: what a key that is present as a None leaf says about S. -/
theorem ts_lookup_leaf {S : List (List String)} {m : List (String × FileTree)}
    {p : String} (hts : TreeSpec S (.node m)) (h : lookupT p m = some .leaf) :
    [p] ∈ S := by
  have := hts [p]
  rw [shapeAt_cons_some h] at this
  simp only [shapeAt, getPath] at this
  exact (specShape_eq_true_iff S [p]).mp this.symm

theorem ts_lookup_node {S : List (List String)} {m : List (String × FileTree)}
    {p : String} {sub : List (String × FileTree)}
    (hts : TreeSpec S (.node m)) (h : lookupT p m = some (.node sub)) :
    [p] ∉ S ∧ (S.any fun q => properPre [p] q) = true ∧
      TreeSpec (childSet p S) (.node sub) := by
  have hshape := hts [p]
  rw [shapeAt_cons_some h, shapeAt_node_nil] at hshape
  have hmem : [p] ∉ S := by
    intro hc
    have hx := (specShape_eq_true_iff S [p]).mpr hc
    rw [hx] at hshape
    simp at hshape
  have hany : (S.any fun q => properPre [p] q) = true := by
    by_contra hcon
    have := specShape_none_of_no_ext (by simp) hmem (by simpa using hcon)
    rw [this] at hshape
    exact Option.noConfusion hshape
  refine ⟨hmem, hany, ?_⟩
  intro σ
  cases σ with
  | nil =>
      rw [shapeAt_node_nil]
      unfold specShape
      rw [if_neg (fun hc => hmem ((childSet_mem p S []).mp hc)), if_pos rfl]
  | cons c τ =>
      rw [← specShape_childSet (by simp) p S, ← hts (p :: c :: τ),
        shapeAt_cons_some h]

theorem ts_lookup_none {S : List (List String)} {m : List (String × FileTree)}
    {p : String} (hts : TreeSpec S (.node m)) (h : lookupT p m = none)
    (σ : List String) : specShape S (p :: σ) = none := by
  rw [← hts (p :: σ), shapeAt_cons_none h]

theorem TreeSpec_empty : TreeSpec [] (.node []) := by
  intro pos
  cases pos with
  | nil => rw [shapeAt_node_nil]; rfl
  | cons k σ => rw [shapeAt_cons_none (by rfl)]; rfl

theorem specShape_nil_false {S : List (List String)} (h : [] ∉ S) :
    specShape S [] = some false := by
  unfold specShape
  rw [if_neg h, if_pos rfl]

theorem specShape_cons_skip {parts pos : List String}
    (hmem : pos ≠ parts) (hpre : properPre pos parts = false)
    (S : List (List String)) :
    specShape (parts :: S) pos = specShape S pos := by
  unfold specShape
  by_cases hm : pos ∈ S
  · rw [if_pos (List.mem_cons_of_mem _ hm), if_pos hm]
  · rw [if_neg (by simp [hmem, hm]), if_neg hm]
    by_cases hn : pos = []
    · rw [if_pos hn, if_pos hn]
    · rw [if_neg hn, if_neg hn]
      simp [hpre]

theorem specShape_none_elim {S : List (List String)} {pos : List String}
    (hpos : pos ≠ []) (h : specShape S pos = none) :
    pos ∉ S ∧ (S.any fun q => properPre pos q) = false := by
  unfold specShape at h
  by_cases hm : pos ∈ S
  · rw [if_pos hm] at h
    exact Option.noConfusion h
  · rw [if_neg hm, if_neg hpos] at h
    refine ⟨hm, ?_⟩
    by_cases ha : (S.any fun q => properPre pos q) = true
    · rw [if_pos ha] at h
      exact Option.noConfusion h
    · simpa using ha

theorem specShape_parts_head {part : String} {rest : List String} (hrest : rest ≠ [])
    {S : List (List String)} (hmem : [part] ∉ S) :
    specShape ((part :: rest) :: S) [part] = some false := by
  have hne : [part] ≠ part :: rest := by
    intro hc
    exact hrest (by injection hc with _ h2; exact h2.symm)
  unfold specShape
  rw [if_neg (by simp [hne, hmem]), if_neg (by simp)]
  have h1 : properPre [part] (part :: rest) = true := by
    rw [properPre_cons_same, properPre_nil_left]
    simpa using hrest
  simp [h1]

theorem insertParts_node (ps : List String) (last : String) :
    ∀ m : List (String × FileTree), ∃ mm, insertParts last ps (.node m) = .node mm := by
  induction ps with
  | nil => exact fun m => ⟨m, rfl⟩
  | cons part rest ih =>
      intro m
      unfold insertParts
      cases h : lookupT part (extendM part last m) with
      | none => exact ih _
      | some t =>
          cases t with
          | leaf => exact ih _
          | node sub => exact ⟨_, rfl⟩

theorem shapeAt_append_mono {m : List (String × FileTree)} {pos : List String} {b : Bool}
    (h : shapeAt (.node m) pos = some b) (part : String) (v : FileTree) :
    shapeAt (.node (m ++ [(part, v)])) pos = some b := by
  cases pos with
  | nil => rwa [shapeAt_node_nil] at h ⊢
  | cons k σ =>
      cases hl : lookupT k m with
      | none =>
          rw [shapeAt_cons_none hl] at h
          exact Option.noConfusion h
      | some t =>
          rw [shapeAt_cons_some hl] at h
          have h2 : lookupT k (m ++ [(part, v)]) = some t := by
            rw [lookupT_append, hl]
          rw [shapeAt_cons_some h2]
          exact h

theorem shapeAt_extendM_mono {m : List (String × FileTree)} {pos : List String} {b : Bool}
    (h : shapeAt (.node m) pos = some b) (part last : String) :
    shapeAt (.node (extendM part last m)) pos = some b := by
  cases hl : lookupT part m with
  | some w => rwa [extendM_of_some hl]
  | none =>
      rw [extendM_of_none hl]
      exact shapeAt_append_mono h part _

theorem shapeAt_eq_of_lookup_eq {m1 m2 : List (String × FileTree)} {k : String}
    (h : lookupT k m1 = lookupT k m2) (σ : List String) :
    shapeAt (.node m1) (k :: σ) = shapeAt (.node m2) (k :: σ) := by
  cases h2 : lookupT k m2 with
  | none => rw [shapeAt_cons_none (h.trans h2), shapeAt_cons_none h2]
  | some t => rw [shapeAt_cons_some (h.trans h2), shapeAt_cons_some h2]

/-- Inserting a path never changes the kind (leaf versus dict) of an entry
that already exists anywhere in the tree: the entry type created first
takes precedence at every prefix collision, and it can only add entries. -/
theorem insertParts_shape_mono (ps : List String) (last : String) :
    ∀ (t : FileTree) (pos : List String) (b : Bool),
      shapeAt t pos = some b → shapeAt (insertParts last ps t) pos = some b := by
  induction ps with
  | nil => exact fun t pos b h => h
  | cons part rest ih =>
      intro t pos b h
      cases t with
      | leaf => exact h
      | node m =>
          cases hm : lookupT part m with
          | some w =>
              have he : extendM part last m = m := extendM_of_some hm last
              unfold insertParts
              rw [he, hm]
              cases w with
              | leaf => exact ih _ pos b h
              | node sub =>
                  show shapeAt
                    (.node (replaceT part (insertParts last rest (.node sub)) m)) pos = some b
                  cases pos with
                  | nil => rwa [shapeAt_node_nil] at h ⊢
                  | cons k σ =>
                      by_cases hk : k = part
                      · subst hk
                        rw [shapeAt_cons_some hm] at h
                        rw [shapeAt_cons_some (lookupT_replaceT_eq hm _)]
                        exact ih _ σ b h
                      · cases hkm : lookupT k m with
                        | none =>
                            rw [shapeAt_cons_none hkm] at h
                            exact Option.noConfusion h
                        | some t2 =>
                            rw [shapeAt_cons_some hkm] at h
                            rw [shapeAt_cons_some
                              (by rw [lookupT_replaceT_ne hk]; exact hkm)]
                            exact h
          | none =>
              have hl := lookupT_extendM_self_none hm last
              unfold insertParts
              by_cases hpl : part = last
              · rw [hl, if_pos hpl]
                exact ih _ pos b (shapeAt_extendM_mono h part last)
              · rw [hl, if_neg hpl]
                show shapeAt
                  (.node (replaceT part (insertParts last rest (.node []))
                    (extendM part last m))) pos = some b
                cases pos with
                | nil => rwa [shapeAt_node_nil] at h ⊢
                | cons k σ =>
                    by_cases hk : k = part
                    · subst hk
                      rw [shapeAt_cons_none hm] at h
                      exact Option.noConfusion h
                    · have h2 : lookupT k (extendM part last m) = lookupT k m :=
                        lookupT_extendM_ne hk last m
                      cases hkm : lookupT k m with
                      | none =>
                          rw [shapeAt_cons_none hkm] at h
                          exact Option.noConfusion h
                      | some t2 =>
                          rw [shapeAt_cons_some hkm] at h
                          rw [shapeAt_cons_some
                            (by rw [lookupT_replaceT_ne hk, h2, hkm])]
                          exact h

/-- Inserting one split path into a tree that is exactly the tree of a
prefix-free split set S yields exactly the tree of the enlarged set,
provided the new path is prefix-incomparable with every member of S and
its last segment repeats no earlier segment of itself. -/
theorem insert_spec :
    ∀ (parts : List String) (m : List (String × FileTree)) (S : List (List String)),
      TreeSpec S (.node m) →
      parts ≠ [] →
      freshLast parts = true →
      (∀ q ∈ S, properPre q parts = false ∧ properPre parts q = false) →
      TreeSpec (parts :: S) (insertParts (lastSeg parts) parts (.node m)) := by
  intro parts
  induction parts with
  | nil =>
      intro m S _ hne _ _
      exact absurd rfl hne
  | cons part rest ih =>
      intro m S hts _ hfresh hcompat
      have hnilS : [] ∉ S := by
        intro hc
        have h1 := (hcompat [] hc).1
        rw [properPre_nil_left] at h1
        simp at h1
      cases rest with
      | nil =>
          have hls : lastSeg [part] = part := rfl
          cases hm : lookupT part m with
          | some w =>
              cases w with
              | leaf =>
                  have hmem : [part] ∈ S := ts_lookup_leaf hts hm
                  have he : extendM part (lastSeg [part]) m = m := extendM_of_some hm _
                  unfold insertParts
                  rw [he, hm]
                  show TreeSpec ([part] :: S) (.node m)
                  intro pos
                  rw [hts pos]
                  exact specShape_ext
                    (fun x =>
                      ⟨fun hx => List.mem_cons_of_mem _ hx,
                       fun hx => (List.mem_cons.mp hx).elim (fun he2 => he2 ▸ hmem) id⟩)
                    pos
              | node sub =>
                  obtain ⟨-, hany, -⟩ := ts_lookup_node hts hm
                  rw [List.any_eq_true] at hany
                  obtain ⟨q, hq, hpq⟩ := hany
                  rw [(hcompat q hq).2] at hpq
                  exact Bool.noConfusion hpq
          | none =>
              have hpl : part = lastSeg [part] := rfl
              have hl := lookupT_extendM_self_none hm (lastSeg [part])
              unfold insertParts
              rw [hl, if_pos hpl]
              show TreeSpec ([part] :: S) (.node (extendM part (lastSeg [part]) m))
              rw [extendM_of_none hm, if_pos hpl]
              intro pos
              cases pos with
              | nil =>
                  rw [shapeAt_node_nil, specShape_nil_false]
                  simp [hnilS]
              | cons k σ =>
                  by_cases hk : k = part
                  · subst hk
                    have hlk : lookupT k (m ++ [(k, FileTree.leaf)]) = some .leaf := by
                      rw [lookupT_append, hm]
                      simp [lookupT]
                    rw [shapeAt_cons_some hlk]
                    cases σ with
                    | nil =>
                        show some true = specShape ([k] :: S) [k]
                        rw [(specShape_eq_true_iff _ _).mpr (List.mem_cons_self _ _)]
                    | cons c τ =>
                        show (none : Option Bool) = specShape ([k] :: S) (k :: c :: τ)
                        have hSn := ts_lookup_none hts hm (c :: τ)
                        rw [specShape_cons_skip (by simp)
                          (by rw [properPre_cons_same]; exact properPre_cons_nil c τ), hSn]
                  · have hlk : lookupT k (m ++ [(part, FileTree.leaf)]) = lookupT k m := by
                      rw [lookupT_append]
                      cases h2 : lookupT k m with
                      | some v => rfl
                      | none => simp [lookupT, Ne.symm hk]
                    rw [shapeAt_eq_of_lookup_eq hlk σ, hts (k :: σ),
                      specShape_cons_skip (fun hc => hk (by injection hc))
                        (properPre_cons_ne hk σ [])]
      | cons r1 rs =>
          simp only [freshLast, Bool.and_eq_true, bne_iff_ne] at hfresh
          obtain ⟨hp_ne, hfr2⟩ := hfresh
          have hls : lastSeg (part :: r1 :: rs) = lastSeg (r1 :: rs) := rfl
          have hcompat' : ∀ q ∈ childSet part S,
              properPre q (r1 :: rs) = false ∧ properPre (r1 :: rs) q = false := by
            intro q hq
            have hqS : part :: q ∈ S := (childSet_mem part S q).mp hq
            have h1 := (hcompat _ hqS).1
            have h2 := (hcompat _ hqS).2
            rw [properPre_cons_same] at h1 h2
            exact ⟨h1, h2⟩
          cases hm : lookupT part m with
          | some w =>
              cases w with
              | leaf =>
                  have hmem := ts_lookup_leaf hts hm
                  have h1 := (hcompat [part] hmem).1
                  rw [properPre_cons_same, properPre_nil_left] at h1
                  simp at h1
              | node sub =>
                  obtain ⟨hnm, -, hsub⟩ := ts_lookup_node hts hm
                  have hT := ih sub (childSet part S) hsub (by simp) hfr2 hcompat'
                  obtain ⟨subm, hsubm⟩ := insertParts_node (r1 :: rs) (lastSeg (r1 :: rs)) sub
                  have he : extendM part (lastSeg (part :: r1 :: rs)) m = m :=
                    extendM_of_some hm _
                  unfold insertParts
                  rw [he, hm]
                  show TreeSpec ((part :: r1 :: rs) :: S)
                    (.node (replaceT part
                      (insertParts (lastSeg (part :: r1 :: rs)) (r1 :: rs) (.node sub)) m))
                  rw [hls]
                  intro pos
                  cases pos with
                  | nil =>
                      rw [shapeAt_node_nil, specShape_nil_false]
                      simp [hnilS]
                  | cons k σ =>
                      by_cases hk : k = part
                      · subst hk
                        rw [shapeAt_cons_some (lookupT_replaceT_eq hm _)]
                        cases σ with
                        | nil =>
                            rw [hsubm, shapeAt_node_nil,
                              specShape_parts_head (by simp) hnm]
                        | cons c τ =>
                            rw [hT (c :: τ),
                              specShape_childSet (by simp) k ((k :: r1 :: rs) :: S)]
                            simp [childSet]
                      · have hr : lookupT k (replaceT part
                            (insertParts (lastSeg (r1 :: rs)) (r1 :: rs) (.node sub)) m) =
                            lookupT k m := lookupT_replaceT_ne hk _ m
                        rw [shapeAt_eq_of_lookup_eq hr σ, hts (k :: σ),
                          specShape_cons_skip (fun hc => hk (by injection hc))
                            (properPre_cons_ne hk σ (r1 :: rs))]
          | none =>
              have hpl : part ≠ lastSeg (part :: r1 :: rs) := by
                rw [hls]
                exact hp_ne
              have hl := lookupT_extendM_self_none hm (lastSeg (part :: r1 :: rs))
              unfold insertParts
              rw [hl, if_neg hpl]
              show TreeSpec ((part :: r1 :: rs) :: S)
                (.node (replaceT part
                  (insertParts (lastSeg (part :: r1 :: rs)) (r1 :: rs) (.node []))
                  (extendM part (lastSeg (part :: r1 :: rs)) m)))
              rw [hls]
              have hT := ih [] [] TreeSpec_empty (by simp) hfr2
                (by intro q hq; simp at hq)
              obtain ⟨subm, hsubm⟩ := insertParts_node (r1 :: rs) (lastSeg (r1 :: rs)) []
              have hcs : childSet part S = [] := by
                rw [List.eq_nil_iff_forall_not_mem]
                intro q hq
                exact (specShape_none_elim (by simp) (ts_lookup_none hts hm q)).1
                  ((childSet_mem part S q).mp hq)
              have hlk : lookupT part (extendM part (lastSeg (part :: r1 :: rs)) m) =
                  some (.node []) := by
                rw [hl, if_neg hpl]
              rw [hls] at hlk
              intro pos
              cases pos with
              | nil =>
                  rw [shapeAt_node_nil, specShape_nil_false]
                  simp [hnilS]
              | cons k σ =>
                  by_cases hk : k = part
                  · subst hk
                    rw [shapeAt_cons_some (lookupT_replaceT_eq hlk _)]
                    cases σ with
                    | nil =>
                        have hnm : [k] ∉ S :=
                          (specShape_none_elim (by simp) (ts_lookup_none hts hm [])).1
                        rw [hsubm, shapeAt_node_nil,
                          specShape_parts_head (by simp) hnm]
                    | cons c τ =>
                        rw [hT (c :: τ),
                          specShape_childSet (by simp) k ((k :: r1 :: rs) :: S)]
                        simp [childSet, hcs]
                  · have hr : lookupT k (replaceT part
                        (insertParts (lastSeg (r1 :: rs)) (r1 :: rs) (.node []))
                        (extendM part (lastSeg (r1 :: rs)) m)) = lookupT k m := by
                      rw [lookupT_replaceT_ne hk, lookupT_extendM_ne hk]
                    rw [shapeAt_eq_of_lookup_eq hr σ, hts (k :: σ),
                      specShape_cons_skip (fun hc => hk (by injection hc))
                        (properPre_cons_ne hk σ (r1 :: rs))]

/-- Folding build_file_structure over a list of paths grows the tree of a
split-path set, provided all paths are pairwise prefix-incomparable and
each has a fresh last segment. -/
theorem build_go :
    ∀ (l : List String) (m : List (String × FileTree)) (S : List (List String)),
      TreeSpec S (.node m) →
      (∀ p ∈ l, freshLast (pathParts p) = true) →
      (∀ p ∈ l, ∀ q ∈ l, properPre (pathParts p) (pathParts q) = false) →
      (∀ p ∈ l, ∀ q ∈ S, properPre q (pathParts p) = false ∧ properPre (pathParts p) q = false) →
      TreeSpec ((l.map pathParts).reverse ++ S)
        (l.foldl (fun t p => insertParts (lastSeg (pathParts p)) (pathParts p) t) (.node m)) := by
  intro l
  induction l with
  | nil =>
      intro m S hts _ _ _
      simpa using hts
  | cons x xs ih =>
      intro m S hts hfresh hpair hcomp
      have hx := insert_spec (pathParts x) m S hts (pathParts_ne_nil x)
        (hfresh x (by simp)) (fun q hq => hcomp x (by simp) q hq)
      obtain ⟨m1, hm1⟩ := insertParts_node (pathParts x) (lastSeg (pathParts x)) m
      rw [hm1] at hx
      simp only [List.foldl_cons]
      rw [hm1]
      have hrec := ih m1 (pathParts x :: S) hx
        (fun p hp => hfresh p (by simp [hp]))
        (fun p hp q hq => hpair p (by simp [hp]) q (by simp [hq]))
        (fun p hp q hq => by
          rcases List.mem_cons.mp hq with hq | hq
          · subst hq
            exact ⟨hpair x (by simp) p (by simp [hp]),
              hpair p (by simp [hp]) x (by simp)⟩
          · exact hcomp p (by simp [hp]) q hq)
      intro pos
      rw [hrec pos]
      refine specShape_ext (fun y => ?_) pos
      simp [List.reverse_cons, List.append_assoc]

/-- build_file_structure produces exactly the tree of the split-path set of
its input, for prefix-incomparable inputs with fresh last segments. -/
theorem build_spec (l : List String)
    (hfresh : ∀ p ∈ l, freshLast (pathParts p) = true)
    (hpair : ∀ p ∈ l, ∀ q ∈ l, properPre (pathParts p) (pathParts q) = false) :
    TreeSpec (l.map pathParts) (buildFileStructure l) := by
  have h := build_go l [] [] TreeSpec_empty hfresh hpair
    (by intro p hp q hq; simp at hq)
  intro pos
  show shapeAt
    (l.foldl (fun t p => insertParts (lastSeg (pathParts p)) (pathParts p) t) (.node []))
    pos = specShape (l.map pathParts) pos
  rw [h pos]
  refine specShape_ext (fun y => ?_) pos
  simp

/-- Claim C5 counterexample: build_file_structure is NOT invariant under
permutation of its input list.  The permuted lists ["a", "a/b"] and
["a/b", "a"] produce trees that differ as Python dicts: the first yields
the dict with keys a and b both None, the second nests b under a. -/
theorem build_perm_counterexample :
    List.Perm ["a", "a/b"] ["a/b", "a"] ∧
    ¬ dictEq (buildFileStructure ["a", "a/b"]) (buildFileStructure ["a/b", "a"]) := by
  constructor
  · exact List.Perm.swap "a/b" "a" []
  · intro h
    exact absurd (h ["b"]) (by decide)

/-- Claim C5 (amended): build_file_structure is invariant under permutation
of the input list provided no split path is a strict prefix of another and
each path's last segment repeats no earlier segment of the same path; and,
unconditionally, inserting a path never changes the kind (None leaf versus
dict) of any entry that already exists, so the entry type created first
takes precedence at a collision, and no error is raised (the function is
total). -/
theorem build_perm_invariant_and_precedence :
    (∀ l l' : List String, List.Perm l l' →
      (∀ p ∈ l, freshLast (pathParts p) = true) →
      (∀ p ∈ l, ∀ q ∈ l, properPre (pathParts p) (pathParts q) = false) →
      dictEq (buildFileStructure l) (buildFileStructure l'))
    ∧ (∀ (last : String) (ps : List String) (t : FileTree) (pos : List String) (b : Bool),
        shapeAt t pos = some b → shapeAt (insertParts last ps t) pos = some b) := by
  constructor
  · intro l l' hperm hfresh hpair
    have hf' : ∀ p ∈ l', freshLast (pathParts p) = true :=
      fun p hp => hfresh p (hperm.mem_iff.mpr hp)
    have hp' : ∀ p ∈ l', ∀ q ∈ l', properPre (pathParts p) (pathParts q) = false :=
      fun p hp q hq => hpair p (hperm.mem_iff.mpr hp) q (hperm.mem_iff.mpr hq)
    have h1 := build_spec l hfresh hpair
    have h2 := build_spec l' hf' hp'
    intro pos
    rw [h1 pos, h2 pos]
    exact specShape_ext (fun y => (hperm.map pathParts).mem_iff) pos
  · exact fun last ps t pos b h => insertParts_shape_mono ps last t pos b h

/-- Witness for the amended claim C5 at a concrete prefix-free input. -/
theorem build_perm_invariant_witness :
    dictEq (buildFileStructure ["a.py", "dir/b.py"])
      (buildFileStructure ["dir/b.py", "a.py"]) :=
  build_perm_invariant_and_precedence.1 _ _
    (List.Perm.swap "dir/b.py" "a.py" []) (by decide) (by decide)

/-- Claim C6 counterexample: for the input path a/a (whose last segment
repeats an earlier segment) the tree does NOT have a None leaf at the
position reached by splitting the path: the code creates the leaf at the
first segment instead, because part != parts[-1] compares segment values. -/
theorem build_leaf_positions_counterexample :
    ¬ (∀ pos, shapeAt (buildFileStructure ["a/a"]) pos = some true ↔
        pos ∈ (["a/a"].map pathParts)) := by
  intro h
  exact absurd ((h ["a", "a"]).mpr (by decide)) (by decide)

/-- Claim C6 (amended): for inputs whose split paths are pairwise
prefix-incomparable and whose last segments repeat no earlier segment of
the same path, the tree built by build_file_structure has a None leaf
exactly at the positions reached by splitting each input path on the
slash; in particular the input a.py, dir/b.py yields the nested dict with
a.py None and b.py None under dir, and the empty input yields the empty
dict. -/
theorem build_leaf_positions :
    (∀ l : List String,
      (∀ p ∈ l, freshLast (pathParts p) = true) →
      (∀ p ∈ l, ∀ q ∈ l, properPre (pathParts p) (pathParts q) = false) →
      ∀ pos, shapeAt (buildFileStructure l) pos = some true ↔ pos ∈ l.map pathParts)
    ∧ buildFileStructure ["a.py", "dir/b.py"] =
        .node [("a.py", .leaf), ("dir", .node [("b.py", .leaf)])]
    ∧ buildFileStructure [] = .node [] := by
  refine ⟨?_, rfl, rfl⟩
  intro l hf hp pos
  rw [build_spec l hf hp pos]
  exact specShape_eq_true_iff _ _

/-- Witness for the amended claim C6 at a concrete prefix-free input. -/
theorem build_leaf_positions_witness :
    shapeAt (buildFileStructure ["a.py", "dir/b.py"]) ["dir", "b.py"] = some true :=
  (build_leaf_positions.1 ["a.py", "dir/b.py"] (by decide) (by decide)
    ["dir", "b.py"]).mpr (by decide)

theorem pageWalk_processes_all (l : List RepoEntry) (page : Nat) :
    (pageWalk l page).1 = l := by
  induction l, page using pageWalk.induct with
  | case1 l page h => rw [pageWalk, if_pos h]
  | case2 l page h ih =>
      rw [pageWalk, if_neg h]
      simp only []
      rw [ih]
      exact List.take_append_drop 100 l

theorem pageWalk_pages (l : List RepoEntry) (page : Nat) :
    (pageWalk l page).2 = List.range' page (l.length / 100 + 1) := by
  induction l, page using pageWalk.induct with
  | case1 l page h =>
      rw [pageWalk, if_pos h]
      have h2 : l.length / 100 = 0 := by omega
      rw [h2]
      rfl
  | case2 l page h ih =>
      rw [pageWalk, if_neg h]
      simp only []
      rw [ih]
      simp only [List.length_drop]
      have hn : l.length / 100 + 1 = ((l.length - 100) / 100 + 1) + 1 := by omega
      rw [hn, List.range'_succ, List.range'_succ, List.range'_succ]

theorem fetchFiles_dir (p : String) (ch : List RepoEntry) :
    fetchFiles (.dir p ch) = ch.flatMap fetchFiles := by
  rw [fetchFiles]
  simp [List.flatMap]

theorem reachableFilePaths_dir (p : String) (ch : List RepoEntry) :
    reachableFilePaths (.dir p ch) = ch.flatMap reachableFilePaths := by
  rw [reachableFilePaths]
  simp [List.flatMap]

theorem fetchDir_keys (ch : List RepoEntry)
    (ih : ∀ e ∈ ch, (fetchFiles e).map Prod.fst = reachableFilePaths e) :
    (ch.flatMap fetchFiles).map Prod.fst = ch.flatMap reachableFilePaths := by
  induction ch with
  | nil => simp
  | cons x xs ihx =>
      simp only [List.flatMap_cons, List.map_append]
      rw [ih x (by simp), ihx (fun e he => ih e (by simp [he]))]

theorem fetchFiles_keys (e : RepoEntry) :
    (fetchFiles e).map Prod.fst = reachableFilePaths e := by
  induction e using fetchFiles.induct with
  | case1 p c => simp [fetchFiles, reachableFilePaths]
  | case2 p ch ih =>
      rw [fetchFiles_dir, reachableFilePaths_dir]
      exact fetchDir_keys ch (fun e he => ih ⟨e, he⟩)

/-- Claim C1: for a repository tree whose listing and content calls all
succeed, the dict returned by fetch_all_files_content on the root has as
key set exactly the full paths of the file entries reachable from the
root; directories contribute only via their recursively contained files. -/
theorem tree_walker_key_set (root : List RepoEntry) (p : String) :
    p ∈ (fetchAllFilesContent root).map Prod.fst ↔
      p ∈ root.flatMap reachableFilePaths := by
  unfold fetchAllFilesContent
  rw [pageWalk_processes_all, fetchDir_keys root (fun e _ => fetchFiles_keys e)]

/-- Claim C4: a listing of k full pages of 100 entries followed by a short
page of m entries causes exactly k+1 listing calls at increasing page
numbers, all listed entries are processed, and an empty page terminates
immediately after its single call, returning the entries accumulated so
far. -/
theorem pagination_calls :
    (∀ (l : List RepoEntry) (k m : Nat), m < 100 → l.length = k * 100 + m →
      (pageWalk l 1).2 = List.range' 1 (k + 1) ∧ (pageWalk l 1).1 = l)
    ∧ (∀ page, pageWalk [] page = ([], [page])) := by
  constructor
  · intro l k m hm hlen
    refine ⟨?_, pageWalk_processes_all l 1⟩
    rw [pageWalk_pages l 1, hlen]
    congr 1
    omega
  · intro page
    rw [pageWalk]
    simp

/-- Witness for claim C4 at a listing of 150 entries: one full page and
one short page, hence listing calls at pages 1 and 2 exactly. -/
theorem pagination_calls_witness :
    (List.replicate 150 sampleEntry).length = 1 * 100 + 50 ∧
    (pageWalk (List.replicate 150 sampleEntry) 1).2 = List.range' 1 2 :=
  ⟨by simp, (pagination_calls.1 (List.replicate 150 sampleEntry) 1 50 (by decide)
    (by simp)).1⟩

/-- Claim C2 counterexample: at the file-content call site a rate-limited
response does not sleep the reset delta and does increment the bounded
attempt counter.  With the reset header at 107 and the clock at 100 the
claim predicts one sleep of 7 and a final counter of 0; the code sleeps
the fixed backoff factor 2 and finishes with the counter at 1. -/
theorem rate_limit_file_site_counterexample :
    getFileContent fileRateLimitedOnce = ⟨.value none, [2], 1, 2⟩ ∧
    (getFileContent fileRateLimitedOnce).sleeps ≠ [7] ∧
    (getFileContent fileRateLimitedOnce).finalAttempt ≠ 0 := by
  refine ⟨rfl, ?_, ?_⟩ <;> decide

/-- Claim C2 (amended): at the directory-listing call site a rate-limited
outcome sleeps exactly max(0, reset - now), retries the same call, and
does not increment the bounded attempt counter (rate-limited once then
succeeding gives one such sleep and a counter still 0); at the
file-content call site a rate-limited outcome instead sleeps the fixed
backoff factor 2 and increments the counter (once rate-limited then
succeeding gives one sleep of 2 and a counter of 1). -/
theorem rate_limit_branch_behavior :
    (∀ (oracle : Nat → ListResp) (now reset : Int) (entries : List RepoEntry),
      oracle 0 = .status 403 reset → oracle 1 = .ok entries → entries ≠ [] →
      listPageLoop oracle now 6 0 0 =
        ⟨.page entries, [max 0 (reset - now)], 0, 2⟩)
    ∧ (∀ (oracle : Nat → FileResp) (reset : Int),
      oracle 0 = .status 403 reset → oracle 1 = .ok none →
      getFileContent oracle = ⟨.value none, [2], 1, 2⟩) := by
  constructor
  · intro oracle now reset entries h0 h1 hne
    have hemp : entries.isEmpty = false := by
      cases entries with
      | nil => exact absurd rfl hne
      | cons x xs => rfl
    simp [listPageLoop, h0, h1, hemp]
  · intro oracle reset h0 h1
    simp [getFileContent, getFileContentGo, h0, h1]

/-- Witness for the amended claim C2 at concrete oracles. -/
theorem rate_limit_branch_behavior_witness :
    listPageLoop listRateLimitedOnce 100 6 0 0 = ⟨.page [sampleEntry], [7], 0, 2⟩ ∧
    getFileContent fileRateLimitedOnce = ⟨.value none, [2], 1, 2⟩ := by
  constructor
  · have h := rate_limit_branch_behavior.1 listRateLimitedOnce 100 107 [sampleEntry]
      rfl rfl (by simp)
    simpa using h
  · exact rate_limit_branch_behavior.2 fileRateLimitedOnce 107 rfl rfl

/-- Claim C3 and the divergence that makes it a code bug: with every
listing call answering 429, the inner retry loop of
fetch_all_files_content performs 5 attempts with sleeps 2^1 .. 2^5 and
then exits WITHOUT raising: no HTTPException of any kind leaves the loop;
control falls through to line 172 where len(repo_content) reads an
unbound (first page) or stale variable.  The file-content site, by
contrast, does convert exhaustion into the 500 max-retries error after
the same 5 attempts and sleeps. -/
theorem max_retries_exhaustion_behavior :
    listPageLoop listAlways429 0 6 0 0 = ⟨.fellThrough, [2, 4, 8, 16, 32], 5, 5⟩ ∧
    (∀ c d, (listPageLoop listAlways429 0 6 0 0).outcome ≠ .httpErr c d) ∧
    getFileContent fileAlways429 =
      ⟨.httpErr 500 "Exceeded max retries for fetching file content.",
        [2, 4, 8, 16, 32], 5, 5⟩ := by
  refine ⟨?_, ?_, ?_⟩
  · rfl
  · intro c d h
    rw [(rfl : listPageLoop listAlways429 0 6 0 0 =
      ⟨.fellThrough, [2, 4, 8, 16, 32], 5, 5⟩)] at h
    exact ListOutcome.noConfusion h
  · rfl

/-- Claim C10: a fetched payload whose content field is present but does
not decode as base64 UTF-8 text makes _get_file_content fail on that very
attempt with the Internal 500 error, with no retry and no sleep, never
returning the None marker; and whenever the call returns the None marker,
some request in the run answered a payload with the content field absent. -/
theorem undecodable_content_fails_fast :
    (∀ oracle : Nat → FileResp, oracle 0 = .ok (some none) →
      getFileContent oracle =
        ⟨.httpErr 500 "Unexpected error fetching file content.", [], 0, 1⟩)
    ∧ (∀ oracle : Nat → FileResp,
      (getFileContent oracle).outcome = .value none →
      ∃ i, oracle i = .ok none) := by
  constructor
  · intro oracle h0
    simp [getFileContent, getFileContentGo, h0]
  · have hgo : ∀ (oracle : Nat → FileResp) (rem attempt : Nat),
        (getFileContentGo oracle rem attempt).outcome = .value none →
        ∃ i, oracle i = .ok none := by
      intro oracle rem
      induction rem with
      | zero =>
          intro attempt h
          exact absurd h (by simp [getFileContentGo])
      | succ n ih =>
          intro attempt h
          rw [getFileContentGo] at h
          cases ho : oracle attempt with
          | ok c =>
              cases c with
              | none => exact ⟨attempt, ho⟩
              | some d =>
                  cases d with
                  | some txt => simp only [ho] at h; simp at h
                  | none => simp only [ho] at h; simp at h
          | status code reset =>
              simp only [ho] at h
              by_cases h403 : code = 403
              · rw [if_pos h403] at h
                exact ih (attempt + 1) h
              · rw [if_neg h403] at h
                by_cases hretry : code = 429 ∨ code = 500
                · rw [if_pos hretry] at h
                  exact ih (attempt + 1) h
                · rw [if_neg hretry] at h
                  simp at h
          | exc =>
              simp only [ho] at h
              simp at h
    exact fun oracle h => hgo oracle 5 0 h

/-- Witness for claim C10: an oracle whose first payload carries an
undecodable content field, and one whose first payload lacks the field. -/
theorem undecodable_content_fails_fast_witness :
    getFileContent (fun _ => FileResp.ok (some none)) =
      ⟨.httpErr 500 "Unexpected error fetching file content.", [], 0, 1⟩ ∧
    ∃ i : Nat, (fun _ : Nat => FileResp.ok none) i = FileResp.ok none := by
  refine ⟨undecodable_content_fails_fast.1 (fun _ => FileResp.ok (some none)) rfl, ?_⟩
  exact undecodable_content_fails_fast.2 (fun _ => FileResp.ok none) rfl

theorem rstrip_cons (c : Char) (X : List Char) :
    rstrip (c :: X) =
      if rstrip X = [] then (if pyWs c then [] else [c]) else c :: rstrip X := by
  unfold rstrip
  rw [List.reverse_cons, List.dropWhile_append]
  by_cases h : (X.reverse.dropWhile pyWs) = []
  · rw [if_pos (by simp [h]), if_pos (by simp [h])]
    by_cases hc : pyWs c
    · rw [if_pos hc]
      simp [List.dropWhile, hc]
    · rw [if_neg hc]
      simp [List.dropWhile, hc]
  · rw [if_neg (by simp [h]), if_neg (by simp [h])]
    rw [List.reverse_append]
    simp

theorem rstrip_congr_cons {X Y : List Char} (h : rstrip X = rstrip Y) (c : Char) :
    rstrip (c :: X) = rstrip (c :: Y) := by
  rw [rstrip_cons, rstrip_cons, h]

theorem rstrip_upToMarker_reCapture {term : List Char} (hterm : term ≠ []) :
    ∀ s : List Char, rstrip (upToMarker term s) = rstrip (reCapture term s) := by
  intro s
  induction s with
  | nil =>
      rw [upToMarker, reCapture]
      rw [show findSub term [] = none by
        simp [findSub, List.isEmpty_iff, hterm]]
  | cons c t ih =>
      by_cases hp : term.isPrefixOf (c :: t)
      · rw [upToMarker, reCapture, if_pos hp]
        rw [show findSub term (c :: t) = some 0 by rw [findSub, if_pos hp]]
        rfl
      · by_cases hd : c = '\n' ∧ t = []
        · obtain ⟨hc, ht⟩ := hd
          subst hc
          subst ht
          rw [reCapture, if_neg hp, if_pos ⟨rfl, rfl⟩]
          rw [upToMarker]
          rw [show findSub term ['\n'] = none by
            rw [findSub, if_neg hp,
              show findSub term [] = none by simp [findSub, List.isEmpty_iff, hterm]]
            rfl]
          rfl
        · rw [reCapture, if_neg hp, if_neg hd]
          rw [upToMarker] at ih ⊢
          rw [show findSub term (c :: t) = (findSub term t).map (· + 1) by
            rw [findSub, if_neg hp]]
          cases hf : findSub term t with
          | none =>
              rw [hf] at ih
              show rstrip (c :: t) = rstrip (c :: reCapture term t)
              exact rstrip_congr_cons ih c
          | some j =>
              rw [hf] at ih
              show rstrip (c :: t.take j) = rstrip (c :: reCapture term t)
              exact rstrip_congr_cons ih c

theorem extractSection_eq_spec (marker text : List Char) :
    extractSection marker text = extractSectionSpec marker text := by
  unfold extractSection extractSectionSpec
  cases hf : findSub marker text with
  | none => rfl
  | some i =>
      simp only []
      unfold pyStrip
      rw [rstrip_upToMarker_reCapture (by simp [nlMarker])
        (text.drop (i + marker.length))]

/-- Claim C7: parse_review_response extracts the Downsides, Rating and
Conclusion sections, each equal to the text from immediately after its
marker up to the next recognized marker (a newline followed by three
number signs, which starts every marker line) or the end of text, trimmed
of leading and trailing whitespace; a field whose marker is absent is the
empty string and never an error; text before the first marker and after
the last extracted section is discarded.  The first conjunct states that
the code equals the specification model extractSectionSpec on all inputs;
the others state the missing-marker rule and evaluate one concrete text
with a preamble, internal whitespace and a trailing marker line. -/
theorem parse_review_response_correct :
    (∀ (text : List Char) (found : FileTree),
      parseReviewResponse text found =
        ⟨found, extractSectionSpec downsidesMarker text,
          extractSectionSpec ratingMarker text,
          extractSectionSpec conclusionMarker text⟩)
    ∧ (∀ text, findSub downsidesMarker text = none →
        extractSection downsidesMarker text = [])
    ∧ (∀ text, findSub ratingMarker text = none →
        extractSection ratingMarker text = [])
    ∧ (∀ text, findSub conclusionMarker text = none →
        extractSection conclusionMarker text = [])
    ∧ extractSection downsidesMarker exampleReviewText = "- downside one".toList
    ∧ extractSection ratingMarker exampleReviewText = "4/5".toList
    ∧ extractSection conclusionMarker exampleReviewText = "Good.".toList := by
  refine ⟨?_, ?_, ?_, ?_, by decide, by decide, by decide⟩
  · intro text found
    unfold parseReviewResponse
    rw [extractSection_eq_spec, extractSection_eq_spec, extractSection_eq_spec]
  · intro text h
    unfold extractSection
    rw [h]
  · intro text h
    unfold extractSection
    rw [h]
  · intro text h
    unfold extractSection
    rw [h]

/-- Witness for claim C7: a text without any marker parses to empty
fields. -/
theorem parse_review_response_correct_witness :
    extractSection downsidesMarker "no markers here".toList = [] :=
  parse_review_response_correct.2.1 "no markers here".toList (by decide)

/-- Claim C8: if every inference call yields a flagged completion (absent,
without extractable text, or stopped by the safety classifier),
generate_review performs exactly the safety maximum of 3 attempts, each
with the same prompt, sleeping 2^1, 2^2, 2^3 after them, and then fails
with the 400 blocked-by-safety error, which is distinct from the
transport-level 500 errors; it never returns a result. -/
theorem safety_retry_exhaustion :
    ∀ (oracle : Nat → InferOutcome) (fc : List (String × Option String)) (lvl : String),
      (∀ n, oracle n = .flagged) →
      generateReview oracle fc lvl =
        ⟨.httpErr 400 "Review generation blocked by safety filters after multiple attempts.",
          [2, 4, 8], List.replicate 3 (buildPrompt lvl fc)⟩
      ∧ (∀ r, (generateReview oracle fc lvl).outcome ≠ .success r)
      ∧ (∀ d, (generateReview oracle fc lvl).outcome ≠ .httpErr 500 d) := by
  intro oracle fc lvl hf
  have h : generateReview oracle fc lvl =
      ⟨.httpErr 400 "Review generation blocked by safety filters after multiple attempts.",
        [2, 4, 8], List.replicate 3 (buildPrompt lvl fc)⟩ := by
    unfold generateReview
    simp [genLoopGo, hf 0, hf 1, hf 2, List.replicate]
  refine ⟨h, ?_, ?_⟩
  · intro r hr
    rw [h] at hr
    exact GenOutcome.noConfusion hr
  · intro d hd
    rw [h] at hd
    have := GenOutcome.httpErr.inj hd
    omega

/-- Witness for claim C8 at the constantly flagged oracle. -/
theorem safety_retry_exhaustion_witness :
    generateReview (fun _ => .flagged) [] "Junior" =
      ⟨.httpErr 400 "Review generation blocked by safety filters after multiple attempts.",
        [2, 4, 8], List.replicate 3 (buildPrompt "Junior" [])⟩ :=
  (safety_retry_exhaustion (fun _ => .flagged) [] "Junior" (fun _ => rfl)).1

/-- Claim C9 counterexample: an entry whose content is None does not
contribute an empty body: the f-string interpolation renders it as the
literal text None after the path label. -/
theorem none_content_counterexample :
    codeSnippets [("a.py", none)] = "File: a.py\nNone" ∧
    codeSnippets [("a.py", none)] ≠ "File: a.py\n" := by
  constructor
  · rfl
  · decide

theorem joinNl_substr :
    ∀ (l : List String) (x : String), x ∈ l →
      ∃ u v : String, joinNl l = u ++ x ++ v := by
  intro l
  induction l with
  | nil => intro x hx; exact absurd hx (by simp)
  | cons y ys ih =>
      intro x hx
      rcases List.mem_cons.mp hx with h | h
      · subst h
        cases ys with
        | nil => exact ⟨"", "", by simp [joinNl]⟩
        | cons z zs =>
            refine ⟨"", "\n" ++ joinNl (z :: zs), ?_⟩
            show x ++ "\n" ++ joinNl (z :: zs) = "" ++ x ++ ("\n" ++ joinNl (z :: zs))
            simp [String.append_assoc]
      · have hys : ys ≠ [] := by
          intro hc
          rw [hc] at h
          exact absurd h (by simp)
        obtain ⟨u, v, huv⟩ := ih x h
        cases ys with
        | nil => exact absurd rfl hys
        | cons z zs =>
            refine ⟨y ++ "\n" ++ u, v, ?_⟩
            show y ++ "\n" ++ joinNl (z :: zs) = y ++ "\n" ++ u ++ x ++ v
            rw [huv]
            simp [String.append_assoc]

/-- Claim C9 (amended): for every content map, the prompt built by
generate_review contains one File block per map entry, consisting of the
path label followed by the rendered content, where a None content renders
as the literal body None (not as an empty body) while its path label is
still present. -/
theorem prompt_contains_blocks :
    ∀ (lvl : String) (fc : List (String × Option String)) (p : String) (c : Option String),
      (p, c) ∈ fc →
      ∃ u v : String,
        buildPrompt lvl fc = u ++ ("File: " ++ p ++ "\n" ++ renderContent c) ++ v := by
  intro lvl fc p c hm
  obtain ⟨u, v, huv⟩ := joinNl_substr
    (fc.map (fun kv => "File: " ++ kv.1 ++ "\n" ++ renderContent kv.2))
    ("File: " ++ p ++ "\n" ++ renderContent c)
    (List.mem_map.mpr ⟨(p, c), hm, rfl⟩)
  unfold buildPrompt codeSnippets
  rw [huv]
  refine ⟨"Review this code for a " ++ lvl ++ " level assignment.\n\n" ++
    "Files found in the repository:\n" ++
    pyReprTree (buildFileStructure (fc.map Prod.fst)) ++ "\n\n" ++
    "Code snippets:\n" ++ u,
    v ++ ("\n\n" ++
    "Provide feedback exactly in the following format, ensuring each section starts with the specified label:\n" ++
    "### Start of Review\n" ++
    "### Downsides:\n- List any issues or missing features in the code.\n\n" ++
    "### Rating:\n- Provide a rating out of 5 and briefly justify the score.\n\n" ++
    "### Conclusion:\n- Summarize the main points and give recommendations for improvements.\n" ++
    "### End of Review"), ?_⟩
  simp [String.append_assoc]

/-- Witness for the amended claim C9: the None entry a.py appears with its
path label and the literal body None. -/
theorem prompt_contains_blocks_witness :
    ∃ u v : String,
      buildPrompt "Junior" [("a.py", none)] =
        u ++ ("File: " ++ "a.py" ++ "\n" ++ renderContent none) ++ v :=
  prompt_contains_blocks "Junior" [("a.py", none)] "a.py" none (by simp)
